import Mathlib

/-!
Verification of the group-membership / message-fan-out engine of a small
chat relay (Go sources: room.go, client.go, main.go).

The Group ("room") serializes Join/Leave/Broadcast requests through a single
control loop (`run` in room.go).  We embed that loop as a pure step function
on a room state: the membership set (`clients`, a Go `map[*client]bool`
modelled as a `Finset` of member identities), the per-member outbound queues
(`receive` channels, modelled as lists of pending payloads), and a per-member
closed flag for the queue's channel.  Go runtime panics — closing an already
closed channel, sending on a closed channel — are modelled as `Except.error`
faults that abort the trace, at the granularity of one processed request.
-/

namespace ChatApp

/-- Payloads forwarded through the room (Go `[]byte`, here the decoded text). -/
abbrev Msg := String

/-- `messageBufferSize` from room.go: capacity of each member's outbound queue. -/
def messageBufferSize : Nat := 256

/-- `socketBufferSize` from room.go (not load-bearing for the room logic). -/
def socketBufferSize : Nat := 1024

/-- State owned by a room's serialization loop: the membership set
(`r.clients`), each member's outbound queue contents, and whether each
member's queue channel has been closed. -/
structure RoomState where
  clients : Finset Nat
  queues : Nat → List Msg
  closed : Nat → Bool

/-- A fresh room: `newRoom()` — empty membership, empty open queues. -/
def roomInit : RoomState :=
  { clients := ∅, queues := fun _ => [], closed := fun _ => false }

/-- The three requests the loop in `run` selects on. -/
inductive Event where
  | join (m : Nat)
  | leave (m : Nat)
  | broadcast (p : Msg)
deriving DecidableEq

/-- Go runtime panics reachable from the loop body. -/
inductive Fault where
  | closeClosed
  | sendClosed
deriving DecidableEq

/-- One iteration of the `select` in `run` (room.go):
    * join: `r.clients[client] = true`;
    * leave: `delete(r.clients, client); close(client.receive)` — closing an
      already closed channel panics;
    * broadcast: `for client := range r.clients { client.receive <- msg }` —
      sending on a closed channel panics (modelled before any delivery). -/
def step (s : RoomState) : Event → Except Fault RoomState
  | .join m => .ok { s with clients := insert m s.clients }
  | .leave m =>
      if s.closed m then .error .closeClosed
      else .ok { clients := s.clients.erase m,
                 queues := s.queues,
                 closed := fun c => if c = m then true else s.closed c }
  | .broadcast p =>
      if ∃ c ∈ s.clients, s.closed c = true then .error .sendClosed
      else .ok { s with
                 queues := fun c =>
                   if c ∈ s.clients then s.queues c ++ [p] else s.queues c }

/-- Run the loop over a finite request trace, stopping at the first fault. -/
def runTrace : List Event → RoomState → Except Fault RoomState
  | [], s => .ok s
  | e :: tr, s =>
      match step s e with
      | .ok s' => runTrace tr s'
      | .error f => .error f

/-- Whether a trace ran to completion without a fault. -/
def roomOk : Except Fault RoomState → Bool
  | .ok _ => true
  | .error _ => false

/-- Member `x`'s outbound queue in the final state of a non-faulting run. -/
def okQueues (r : Except Fault RoomState) (x : Nat) : List Msg :=
  match r with
  | .ok s => s.queues x
  | .error _ => []

/-- Spec-side view of delivery (written from the spec's wording of broadcast
completeness): scanning the remaining trace with a flag saying whether `x` is
currently a member, collect each broadcast payload exactly once, in processing
order, exactly when `x` is a member at that moment. -/
def deliveredFrom (x : Nat) (isMem : Bool) : List Event → List Msg
  | [] => []
  | .join m :: tr => deliveredFrom x (if m = x then true else isMem) tr
  | .leave m :: tr => deliveredFrom x (if m = x then false else isMem) tr
  | .broadcast p :: tr =>
      (if isMem then [p] else []) ++ deliveredFrom x isMem tr

/-- Payloads the spec says member `x` receives over a whole trace started
from an empty room (initially `x` is not a member). -/
def deliveredTo (tr : List Event) (x : Nat) : List Msg :=
  deliveredFrom x false tr

/-- Room well-formedness: every current member's queue channel is open.
Holds for every state the real program reaches, since a client joins with a
fresh open channel and leaving both removes and closes it. -/
abbrev RoomWF (s : RoomState) : Prop := ∀ c ∈ s.clients, s.closed c = false

/-!
Finer-grained model of one broadcast being processed, at the granularity of
individual channel operations, for the backpressure property.  While the loop
in `run` handles `case msg := <-r.forward`, it iterates over the membership
set sending `client.receive <- msg`; each send on the buffered channel
(capacity `messageBufferSize`) can proceed only if the buffer has space,
otherwise the whole serialization goroutine is blocked.  Concurrently each
member's writer goroutine (`client.write`) drains its own queue one entry at
a time.  The serialization point is busy for the entire iteration, so no
join/leave request can be processed until the broadcast completes.
-/

/-- Mid-broadcast configuration: the members the delivery loop has not yet
reached (in iteration order), the payload being delivered, and the queue
contents. -/
structure BCfg where
  pending : List Nat
  payload : Msg
  queues : Nat → List Msg

/-- The serialization goroutine's only possible move while a broadcast is in
progress: send the payload to the next member — possible only if that
member's buffered channel has space. `none` means the goroutine is blocked
(or the iteration is finished). -/
def deliverNext (c : BCfg) : Option BCfg :=
  match c.pending with
  | [] => none
  | m :: rest =>
      if (c.queues m).length < messageBufferSize then
        some { pending := rest, payload := c.payload,
               queues := fun y =>
                 if y = m then c.queues m ++ [c.payload] else c.queues y }
      else none

/-- A writer goroutine's move: member `m`'s writer takes the next pending
frame off its own queue (possible only if the queue is non-empty). -/
def drain (m : Nat) (c : BCfg) : Option BCfg :=
  match c.queues m with
  | [] => none
  | _ :: t =>
      some { c with queues := fun y => if y = m then t else c.queues y }

/-- Running the delivery iteration to completion when no queue it will touch
is full: the resulting queue contents. -/
def deliverRun : List Nat → Msg → (Nat → List Msg) → (Nat → List Msg)
  | [], _, qs => qs
  | m :: rest, p, qs =>
      deliverRun rest p (fun y => if y = m then qs m ++ [p] else qs y)

/-- Concrete full-queue configuration for the backpressure witness. -/
def bcfgEx : BCfg :=
  ⟨[7, 8], "p", fun y => if y = 7 then List.replicate messageBufferSize "m" else []⟩

/-!
The room registry (room.go): a process-wide map from room name to room
instance, guarded by a mutex.  The mutex makes concurrent `getRoom` calls
execute their check-or-create sections one after another, so a finite burst
of (possibly concurrent) calls is modelled as a list of names processed
sequentially.  Room instances are identified by a creation counter; `started`
records each instance whose `go room.run()` loop was launched, in creation
order.
-/

/-- Registry state: `next` is the identity the next created room will get,
`rooms` is the `rooms` map (assoc list), `started` the launched run loops. -/
structure RegState where
  next : Nat
  rooms : List (String × Nat)
  started : List Nat
deriving DecidableEq

/-- The empty registry: `var rooms = make(map[string]*room)`. -/
def regInit : RegState := ⟨0, [], []⟩

/-- Go map lookup `rooms[name]`. -/
def findRoom (name : String) : List (String × Nat) → Option Nat
  | [] => none
  | (k, v) :: rest => if k = name then some v else findRoom name rest

/-- `getRoom` (room.go): under the mutex, return the existing room for the
name, or create a fresh one, store it, and start its run loop. -/
def getRoom (name : String) (st : RegState) : Nat × RegState :=
  match findRoom name st.rooms with
  | some r => (r, st)
  | none =>
      (st.next,
       ⟨st.next + 1, (name, st.next) :: st.rooms, st.started ++ [st.next]⟩)

/-- A burst of `getRoom` calls serialized by the mutex: the per-call results
and the final registry state. -/
def runReg : List String → RegState → List Nat × RegState
  | [], st => ([], st)
  | n :: ns, st =>
      let pr := getRoom n st
      let qs := runReg ns pr.2
      (pr.1 :: qs.1, qs.2)

/-- Keys of the registry map. -/
def regKeys (st : RegState) : List String := st.rooms.map Prod.fst

/-- Registry bookkeeping invariant: the creation counter equals the number of
stored rooms, keys are distinct, and one run loop was started per creation. -/
def RegInv (st : RegState) : Prop :=
  st.next = st.rooms.length ∧ (regKeys st).Nodup
    ∧ st.started.length = st.next

/-!
The HTTP upgrade path.  main.go's `/room` handler checks the `room` query
parameter (an absent parameter reads as ""), resolves the room via `getRoom`,
and calls the room's `ServeHTTP`, which re-reads the parameter, resolves the
room again, and then attempts the websocket upgrade; only after a successful
upgrade is a client constructed and a join request submitted.  The upgrade's
success is an input from the external connection.
-/

/-- Outcome of one request on the `/room` route. -/
inductive ServeResult where
  | badRequest
  | upgradeErr
  | joined (room : Nat)
deriving DecidableEq

/-- Whether a Member was created (and joined) during the request. -/
def memberCreated : ServeResult → Bool
  | .joined _ => true
  | _ => false

/-- `(r *room) ServeHTTP` (room.go): parameter check, `getRoom`, upgrade;
on upgrade failure it logs and returns with no client created. -/
def roomServeHTTP (room : String) (upgradeOk : Bool) (st : RegState) :
    ServeResult × RegState :=
  if room = "" then (.badRequest, st)
  else if upgradeOk then (.joined (getRoom room st).1, (getRoom room st).2)
  else (.upgradeErr, (getRoom room st).2)

/-- The `/room` closure in main.go: parameter check, `getRoom`, then the
room's `ServeHTTP` (which ignores its receiver and re-resolves the room). -/
def handleRoom (room : String) (upgradeOk : Bool) (st : RegState) :
    ServeResult × RegState :=
  if room = "" then (.badRequest, st)
  else roomServeHTTP room upgradeOk (getRoom room st).2

/-!
Outbound payload encoding (client.go `read`): each inbound frame is wrapped
into `map[string]string{"name": c.name, "message": string(msg)}` and passed
to `encoding/json.Marshal`, which emits the map's entries in sorted key
order, JSON-escaping each string (with Go's default HTML escaping of `<`,
`>`, `&`, and escaping of `"`, `\`, control characters, U+2028 and U+2029).
-/

/-- Lowercase hex digit, as in Go's encoding/json `hex` table. -/
def hexDigit (n : Nat) : Char :=
  if n < 10 then Char.ofNat (48 + n) else Char.ofNat (87 + n)

/-- Go's encoding/json string escaping of one character (default escaper:
HTML-escapes `<`, `>`, `&`; `\n`, `\r`, `\t` get two-character escapes; other
control characters and U+2028/U+2029 get `\u` escapes). -/
def goEscapeChar (c : Char) : List Char :=
  if c = '"' then ['\\', '"']
  else if c = '\\' then ['\\', '\\']
  else if c = '\n' then ['\\', 'n']
  else if c = '\r' then ['\\', 'r']
  else if c = '\t' then ['\\', 't']
  else if c.toNat < 32 ∨ c = '<' ∨ c = '>' ∨ c = '&' then
    ['\\', 'u', '0', '0', hexDigit (c.toNat / 16), hexDigit (c.toNat % 16)]
  else if c.toNat = 8232 ∨ c.toNat = 8233 then
    ['\\', 'u', '2', '0', '2', hexDigit (c.toNat % 16)]
  else [c]

/-- A JSON string literal for `s`, Go-escaped. -/
def goQuote (s : String) : String :=
  ⟨'"' :: (s.data.map goEscapeChar).flatten ++ ['"']⟩

/-- Insert one key/value pair into a key-sorted list (Go's `sort.Strings`
ordering of map keys: lexicographic, compared on the character sequences). -/
def insertKV (kv : String × String) : List (String × String) → List (String × String)
  | [] => [kv]
  | h :: t => if kv.1.data < h.1.data then kv :: h :: t else h :: insertKV kv t

/-- Sort the map's entries by key, as json.Marshal does for a Go map. -/
def sortKV : List (String × String) → List (String × String)
  | [] => []
  | h :: t => insertKV h (sortKV t)

/-- Comma-joined `"key":"value"` fields. -/
def fieldsJoin : List (String × String) → String
  | [] => ""
  | [kv] => goQuote kv.1 ++ ":" ++ goQuote kv.2
  | kv :: rest => goQuote kv.1 ++ ":" ++ goQuote kv.2 ++ "," ++ fieldsJoin rest

/-- `json.Marshal` of a `map[string]string` given as an entry list. -/
def marshalStringMap (kvs : List (String × String)) : String :=
  "\x7b" ++ fieldsJoin (sortKV kvs) ++ "\x7d"

/-- The payload `client.read` forwards to the room for an inbound frame:
the marshalled two-entry map with the member's display name and the frame
text. -/
def readPayload (name msg : String) : Msg :=
  marshalStringMap [("name", name), ("message", msg)]

/-- Spec-side serialization of the record with the "name" field first. -/
def recordNameFirst (name msg : String) : String :=
  "\x7b" ++ goQuote "name" ++ ":" ++ goQuote name ++ ","
    ++ goQuote "message" ++ ":" ++ goQuote msg ++ "\x7d"

/-- Spec-side serialization of the record with the "message" field first. -/
def recordMessageFirst (name msg : String) : String :=
  "\x7b" ++ goQuote "message" ++ ":" ++ goQuote msg ++ ","
    ++ goQuote "name" ++ ":" ++ goQuote name ++ "\x7d"

theorem runTrace_cons (e : Event) (tr : List Event) (s : RoomState) :
    runTrace (e :: tr) s =
      match step s e with
      | .ok s' => runTrace tr s'
      | .error f => .error f := rfl

theorem runTrace_append (a b : List Event) (s : RoomState) :
    runTrace (a ++ b) s =
      match runTrace a s with
      | .ok s' => runTrace b s'
      | .error f => .error f := by
  induction a generalizing s with
  | nil => simp [runTrace]
  | cons e a ih =>
      simp only [List.cons_append, runTrace]
      cases step s e with
      | ok s' => exact ih s'
      | error f => rfl

theorem step_join (s : RoomState) (m : Nat) :
    step s (.join m) = .ok { s with clients := insert m s.clients } := rfl

theorem step_leave_open (s : RoomState) (m : Nat) (h : s.closed m = false) :
    step s (.leave m) =
      .ok { clients := s.clients.erase m,
            queues := s.queues,
            closed := fun c => if c = m then true else s.closed c } := by
  simp [step, h]

theorem step_leave_closed (s : RoomState) (m : Nat) (h : s.closed m = true) :
    step s (.leave m) = .error .closeClosed := by
  simp [step, h]

theorem step_broadcast_ok (s : RoomState) (p : Msg)
    (h : ¬ ∃ c ∈ s.clients, s.closed c = true) :
    step s (.broadcast p) =
      .ok { s with
            queues := fun c =>
              if c ∈ s.clients then s.queues c ++ [p] else s.queues c } := by
  simp only [step, if_neg h]

/-- Core invariant for broadcast completeness: over any non-faulting run, a
member's queue grows by exactly the payloads delivered to it according to the
membership flag tracked event by event. -/
theorem queues_run (tr : List Event) :
    ∀ (s s' : RoomState) (x : Nat), runTrace tr s = .ok s' →
      s'.queues x = s.queues x ++ deliveredFrom x (decide (x ∈ s.clients)) tr := by
  induction tr with
  | nil =>
      intro s s' x h
      cases h
      simp [deliveredFrom]
  | cons e tr ih =>
      intro s s' x h
      cases e with
      | join m =>
          rw [runTrace_cons, step_join] at h
          have hq := ih _ _ x h
          dsimp only at hq
          have hb : decide (x ∈ insert m s.clients) =
              (if m = x then true else decide (x ∈ s.clients)) := by
            by_cases hmx : m = x
            · subst hmx; simp
            · simp [Finset.mem_insert, Ne.symm hmx, hmx]
          simp only [deliveredFrom]
          rw [hq, hb]
      | leave m =>
          cases hcl : s.closed m with
          | true =>
              rw [runTrace_cons, step_leave_closed s m hcl] at h
              cases h
          | false =>
              rw [runTrace_cons, step_leave_open s m hcl] at h
              have hq := ih _ _ x h
              dsimp only at hq
              have hb : decide (x ∈ s.clients.erase m) =
                  (if m = x then false else decide (x ∈ s.clients)) := by
                by_cases hmx : m = x
                · subst hmx; simp
                · simp [Finset.mem_erase, Ne.symm hmx, hmx]
              simp only [deliveredFrom]
              rw [hq, hb]
      | broadcast p =>
          by_cases hex : ∃ c ∈ s.clients, s.closed c = true
          · rw [runTrace_cons] at h
            simp only [step, if_pos hex] at h
            cases h
          · rw [runTrace_cons, step_broadcast_ok s p hex] at h
            have hq := ih _ _ x h
            dsimp only at hq
            rw [hq]
            by_cases hx : x ∈ s.clients
            · simp [deliveredFrom, hx, List.append_assoc]
            · simp [deliveredFrom, hx]

/-- Over a suffix containing no `join x`, a non-member `x` stays a non-member
and its queue is never written. -/
theorem nonmember_fixed (tr : List Event) :
    ∀ (s s' : RoomState) (x : Nat), Event.join x ∉ tr → x ∉ s.clients →
      runTrace tr s = .ok s' → s'.queues x = s.queues x ∧ x ∉ s'.clients := by
  induction tr with
  | nil =>
      intro s s' x _ hx h
      cases h
      exact ⟨rfl, hx⟩
  | cons e tr ih =>
      intro s s' x hnj hx h
      have hnj' : Event.join x ∉ tr := fun hc => hnj (List.mem_cons_of_mem _ hc)
      cases e with
      | join m =>
          have hmx : x ≠ m := by
            intro e
            exact hnj (by rw [e]; exact List.mem_cons_self _ _)
          rw [runTrace_cons, step_join] at h
          have := ih _ _ x hnj' (by simp [Finset.mem_insert, hmx, hx]) h
          exact this
      | leave m =>
          cases hcl : s.closed m with
          | true =>
              rw [runTrace_cons, step_leave_closed s m hcl] at h
              cases h
          | false =>
              rw [runTrace_cons, step_leave_open s m hcl] at h
              have := ih _ _ x hnj'
                (by
                  dsimp only
                  intro hc
                  exact hx (Finset.mem_of_mem_erase hc)) h
              exact this
      | broadcast p =>
          by_cases hex : ∃ c ∈ s.clients, s.closed c = true
          · rw [runTrace_cons] at h
            simp only [step, if_pos hex] at h
            cases h
          · rw [runTrace_cons, step_broadcast_ok s p hex] at h
            dsimp only at h
            have := ih _ _ x hnj' (by exact hx) h
            dsimp only at this
            rw [if_neg hx] at this
            exact this

/-- Claim C1: every broadcast processed by a room's loop is enqueued exactly
once onto the outbound queue of every member of the membership set at the
moment it is processed (the sender, being a member, included), in processing
order, and a member whose join had not yet been processed at that moment
never receives the payload: over any non-faulting trace from a fresh room,
member `x`'s queue equals exactly the spec-side delivery list `deliveredTo`. -/
theorem broadcast_completeness (tr : List Event) (x : Nat)
    (h : roomOk (runTrace tr roomInit) = true) :
    okQueues (runTrace tr roomInit) x = deliveredTo tr x := by
  cases hr : runTrace tr roomInit with
  | error f => rw [hr] at h; simp [roomOk] at h
  | ok s' =>
      have hq := queues_run tr roomInit s' x hr
      simp only [okQueues]
      rw [hq]
      have : decide (x ∈ roomInit.clients) = false := by
        simp [roomInit]
      rw [this]
      simp [roomInit, deliveredTo]

/-- Witness for C1 on the concrete trace
join 1, join 2, broadcast "hi", leave 1, broadcast "yo": member 1 receives
exactly ["hi"]. -/
theorem broadcast_completeness_witness :
    roomOk (runTrace [Event.join 1, Event.join 2, Event.broadcast "hi",
      Event.leave 1, Event.broadcast "yo"] roomInit) = true
    ∧ okQueues (runTrace [Event.join 1, Event.join 2, Event.broadcast "hi",
        Event.leave 1, Event.broadcast "yo"] roomInit) 1
      = deliveredTo [Event.join 1, Event.join 2, Event.broadcast "hi",
        Event.leave 1, Event.broadcast "yo"] 1 :=
  ⟨by decide, broadcast_completeness _ 1 (by decide)⟩

/-- Claim C9: `r.clients[client] = true` on an existing key leaves the Go map
unchanged, so processing Join of a current member is a no-op on the state. -/
theorem join_idempotent (s : RoomState) (m : Nat) (hm : m ∈ s.clients) :
    step s (Event.join m) = Except.ok s := by
  rw [step_join, Finset.insert_eq_self.mpr hm]

/-- Witness for C9: joining member 1 of a room already containing it. -/
theorem join_idempotent_witness :
    1 ∈ (RoomState.mk {1} (fun _ => []) (fun _ => false)).clients
    ∧ step (RoomState.mk {1} (fun _ => []) (fun _ => false)) (Event.join 1)
      = Except.ok (RoomState.mk {1} (fun _ => []) (fun _ => false)) :=
  ⟨by decide, join_idempotent _ 1 (by decide)⟩

/-- Claim C10: Leave closes the member's queue unconditionally — the loop
does `delete` then `close` with no membership test — so a Leave for a member
whose queue is already closed panics (close of closed channel), and a Leave
for an absent-but-open member still closes its queue; a double Leave for the
same member therefore faults the room. -/
theorem double_leave_fault :
    (∀ (s : RoomState) (m : Nat), s.closed m = true →
        step s (Event.leave m) = Except.error Fault.closeClosed)
    ∧ (∀ (s : RoomState) (m : Nat), s.closed m = false →
        step s (Event.leave m) =
          Except.ok { clients := s.clients.erase m, queues := s.queues,
                      closed := fun c => if c = m then true else s.closed c })
    ∧ roomOk (runTrace [Event.join 0, Event.leave 0, Event.leave 0]
        roomInit) = false :=
  ⟨fun s m h => step_leave_closed s m h,
   fun s m h => step_leave_open s m h,
   by decide⟩

/-- Witness for C10: leaving with an already-closed queue faults. -/
theorem double_leave_fault_witness :
    (RoomState.mk ∅ (fun _ => []) (fun _ => true)).closed 0 = true
    ∧ step (RoomState.mk ∅ (fun _ => []) (fun _ => true)) (Event.leave 0)
      = Except.error Fault.closeClosed :=
  ⟨rfl, double_leave_fault.1 _ 0 rfl⟩

/-- A non-faulting run containing no `join x`, started with `x` absent,
leaves `x`'s queue as it was. -/
theorem okQueues_nonmember (tr : List Event) (s : RoomState) (x : Nat)
    (hnj : Event.join x ∉ tr) (hx : x ∉ s.clients)
    (h : roomOk (runTrace tr s) = true) :
    okQueues (runTrace tr s) x = s.queues x := by
  cases hr : runTrace tr s with
  | error f => rw [hr] at h; simp [roomOk] at h
  | ok s' =>
      simp only [okQueues]
      exact (nonmember_fixed tr s s' x hnj hx hr).1

/-- Claim C2: once `leave x` has been processed, later broadcasts never write
`x`'s queue (its queue after the whole run equals its queue right after the
leave), and a broadcast over an empty membership set completes without fault
and writes no queue at all. -/
theorem no_delivery_after_leave (tr1 tr2 : List Event) (x : Nat)
    (hnj : Event.join x ∉ tr2)
    (h : roomOk (runTrace (tr1 ++ Event.leave x :: tr2) roomInit) = true) :
    okQueues (runTrace (tr1 ++ Event.leave x :: tr2) roomInit) x
      = okQueues (runTrace (tr1 ++ [Event.leave x]) roomInit) x
    ∧ ∀ (s : RoomState) (p : Msg), s.clients = ∅ →
        ∃ s', step s (Event.broadcast p) = Except.ok s'
          ∧ ∀ c, s'.queues c = s.queues c := by
  constructor
  · have hsplit := runTrace_append tr1 (Event.leave x :: tr2) roomInit
    have hrhs := runTrace_append tr1 [Event.leave x] roomInit
    cases hr1 : runTrace tr1 roomInit with
    | error f =>
        rw [hr1] at hsplit
        rw [hsplit] at h
        simp [roomOk] at h
    | ok s₀ =>
        rw [hr1] at hsplit hrhs
        dsimp only at hsplit hrhs
        cases hcl : s₀.closed x with
        | true =>
            rw [runTrace_cons, step_leave_closed s₀ x hcl] at hsplit
            rw [hsplit] at h
            simp [roomOk] at h
        | false =>
            rw [runTrace_cons, step_leave_open s₀ x hcl] at hsplit hrhs
            dsimp only at hsplit hrhs
            rw [hsplit] at h ⊢
            rw [hrhs]
            rw [okQueues_nonmember tr2 _ x hnj
              (by exact Finset.not_mem_erase x s₀.clients) h]
            simp only [runTrace, okQueues]
  · intro s p hempty
    refine ⟨_, step_broadcast_ok s p ?_, ?_⟩
    · rintro ⟨c, hc, _⟩
      rw [hempty] at hc
      exact absurd hc (Finset.not_mem_empty c)
    · intro c
      dsimp only
      rw [hempty]
      simp

/-- Witness for C2: join 1, join 2, broadcast "a", leave 1, broadcast "b" —
member 1's final queue equals its queue right after the leave. -/
theorem no_delivery_after_leave_witness :
    Event.join 1 ∉ [Event.broadcast "b"]
    ∧ roomOk (runTrace ([Event.join 1, Event.join 2, Event.broadcast "a"]
        ++ Event.leave 1 :: [Event.broadcast "b"]) roomInit) = true
    ∧ (okQueues (runTrace ([Event.join 1, Event.join 2, Event.broadcast "a"]
          ++ Event.leave 1 :: [Event.broadcast "b"]) roomInit) 1
        = okQueues (runTrace ([Event.join 1, Event.join 2, Event.broadcast "a"]
          ++ [Event.leave 1]) roomInit) 1
      ∧ ∀ (s : RoomState) (p : Msg), s.clients = ∅ →
          ∃ s', step s (Event.broadcast p) = Except.ok s'
            ∧ ∀ c, s'.queues c = s.queues c) :=
  ⟨by decide, by decide,
   no_delivery_after_leave [Event.join 1, Event.join 2, Event.broadcast "a"]
     [Event.broadcast "b"] 1 (by decide) (by decide)⟩

/-- Claim C5: processing `leave m` removes `m` from the membership set and
closes its queue in the same step, and from the resulting state any broadcast
completes without fault and leaves the closed queue untouched. -/
theorem leave_closes_and_removes (s : RoomState) (m : Nat)
    (hwf : RoomWF s) (hm : s.closed m = false) :
    ∃ s', step s (Event.leave m) = Except.ok s'
      ∧ m ∉ s'.clients ∧ s'.closed m = true ∧ RoomWF s'
      ∧ ∀ p, ∃ s'', step s' (Event.broadcast p) = Except.ok s''
          ∧ s''.queues m = s'.queues m := by
  refine ⟨_, step_leave_open s m hm, ?_, ?_, ?_, ?_⟩
  · exact Finset.not_mem_erase m s.clients
  · simp
  · intro c hc
    dsimp only at hc ⊢
    obtain ⟨hcm, hcs⟩ := Finset.mem_erase.mp hc
    rw [if_neg hcm]
    exact hwf c hcs
  · intro p
    refine ⟨_, step_broadcast_ok _ p ?_, ?_⟩
    · rintro ⟨c, hc, hclc⟩
      dsimp only at hc hclc
      obtain ⟨hcm, hcs⟩ := Finset.mem_erase.mp hc
      rw [if_neg hcm, hwf c hcs] at hclc
      cases hclc
    · dsimp only
      rw [if_neg (Finset.not_mem_erase m s.clients)]

/-- Witness for C5 on the room with open members 1 and 2, leaving member 1. -/
theorem leave_closes_and_removes_witness :
    RoomWF (RoomState.mk {1, 2} (fun _ => []) (fun _ => false))
    ∧ (RoomState.mk {1, 2} (fun _ => []) (fun _ => false)).closed 1 = false
    ∧ ∃ s', step (RoomState.mk {1, 2} (fun _ => []) (fun _ => false))
          (Event.leave 1) = Except.ok s'
        ∧ 1 ∉ s'.clients ∧ s'.closed 1 = true ∧ RoomWF s'
        ∧ ∀ p, ∃ s'', step s' (Event.broadcast p) = Except.ok s''
            ∧ s''.queues 1 = s'.queues 1 :=
  ⟨by decide, rfl,
   leave_closes_and_removes _ 1 (by decide) rfl⟩

/-- Queues not in the pending list are never written by the delivery loop,
and each pending member (first occurrence) gets the payload appended once. -/
theorem deliverRun_notin (pend : List Nat) (p : Msg) :
    ∀ (qs : Nat → List Msg) (y : Nat), y ∉ pend →
      deliverRun pend p qs y = qs y := by
  induction pend with
  | nil => intro qs y _; rfl
  | cons m rest ih =>
      intro qs y hy
      have hym : y ≠ m := fun e => hy (e ▸ List.mem_cons_self m rest)
      have hyr : y ∉ rest := fun hc => hy (List.mem_cons_of_mem _ hc)
      simp only [deliverRun]
      rw [ih _ y hyr, if_neg hym]

/-- With duplicate-free pending members (the Go map iteration visits each
member once), the completed delivery appends the payload exactly once to
every pending member's queue. -/
theorem deliverRun_mem (pend : List Nat) (p : Msg) :
    ∀ (qs : Nat → List Msg) (y : Nat), pend.Nodup → y ∈ pend →
      deliverRun pend p qs y = qs y ++ [p] := by
  induction pend with
  | nil => intro qs y _ hy; cases hy
  | cons m rest ih =>
      intro qs y hnd hy
      simp only [deliverRun]
      rcases List.mem_cons.mp hy with he | hr
      · subst he
        have hyr : y ∉ rest := (List.nodup_cons.mp hnd).1
        rw [deliverRun_notin rest p _ y hyr, if_pos rfl]
      · have hnd' : rest.Nodup := (List.nodup_cons.mp hnd).2
        have hym : y ≠ m := by
          intro e
          exact (List.nodup_cons.mp hnd).1 (e ▸ hr)
        rw [ih _ y hnd' hr, if_neg hym]

/-- Claim C4: if the member `x` at the head of the delivery iteration has a
full outbound queue (`messageBufferSize` entries), the serialization point is
blocked — it has no possible move; after `x`'s writer drains one entry the
send becomes possible, delivering the payload to `x` and leaving every other
queue and the remaining iteration intact; and once every remaining queue has
space the rest of the iteration delivers the payload exactly once to each
remaining member — delayed, never skipped.  (A leave for `x` cannot be
processed while the loop is mid-broadcast, so a writer drain is the only
enabler.) -/
theorem broadcast_backpressure (c : BCfg) (x : Nat) (rest : List Nat)
    (hp : c.pending = x :: rest)
    (hfull : (c.queues x).length = messageBufferSize) :
    deliverNext c = none
    ∧ (∀ c', drain x c = some c' →
        ∃ c'', deliverNext c' = some c''
          ∧ c''.pending = rest
          ∧ c''.queues x = c'.queues x ++ [c.payload]
          ∧ (∀ y, y ≠ x → c''.queues y = c.queues y)
          ∧ (rest.Nodup →
              (∀ y ∈ rest, (c''.queues y).length < messageBufferSize) →
              ∀ y ∈ rest,
                deliverRun rest c.payload c''.queues y
                  = c''.queues y ++ [c.payload])) := by
  constructor
  · simp only [deliverNext, hp, hfull]
    simp
  · intro c' hdr
    simp only [drain] at hdr
    revert hdr
    split
    · intro hdr; cases hdr
    · rename_i hd t hq
      intro hdr
      injection hdr with hdr
      subst hdr
      have hlt : t.length < messageBufferSize := by
        have : (c.queues x).length = t.length + 1 := by rw [hq]; rfl
        omega
      refine ⟨{ pending := rest, payload := c.payload,
                queues := fun y =>
                  if y = x then
                    (fun z => if z = x then t else c.queues z) x ++ [c.payload]
                  else (fun z => if z = x then t else c.queues z) y },
              ?_, rfl, ?_, ?_, ?_⟩
      · simp only [deliverNext, hp]
        rw [if_pos (by simpa using hlt)]
      · dsimp only
        simp
      · intro y hyx
        dsimp only
        rw [if_neg hyx, if_neg hyx]
      · intro hnd hspace y hy
        exact deliverRun_mem rest c.payload _ y hnd hy

/-- Witness for C4 on `bcfgEx`: member 7's queue holds 256 entries. -/
theorem broadcast_backpressure_witness :
    bcfgEx.pending = 7 :: [8]
    ∧ (bcfgEx.queues 7).length = messageBufferSize
    ∧ deliverNext bcfgEx = none
    ∧ (∀ c', drain 7 bcfgEx = some c' →
        ∃ c'', deliverNext c' = some c''
          ∧ c''.pending = [8]
          ∧ c''.queues 7 = c'.queues 7 ++ [bcfgEx.payload]
          ∧ (∀ y, y ≠ 7 → c''.queues y = bcfgEx.queues y)
          ∧ (List.Nodup [8] →
              (∀ y ∈ [8], (c''.queues y).length < messageBufferSize) →
              ∀ y ∈ [8],
                deliverRun [8] bcfgEx.payload c''.queues y
                  = c''.queues y ++ [bcfgEx.payload])) := by
  have h := broadcast_backpressure bcfgEx 7 [8] rfl (by simp [bcfgEx])
  exact ⟨rfl, by simp [bcfgEx], h.1, h.2⟩

theorem getRoom_found (name : String) (st : RegState) (r : Nat)
    (h : findRoom name st.rooms = some r) : getRoom name st = (r, st) := by
  simp [getRoom, h]

theorem getRoom_lookup (name : String) (st : RegState) :
    findRoom name (getRoom name st).2.rooms = some (getRoom name st).1 := by
  unfold getRoom
  cases h : findRoom name st.rooms with
  | some r => simpa using h
  | none => simp [findRoom]

theorem getRoom_mono (name m : String) (st : RegState) (r : Nat)
    (h : findRoom name st.rooms = some r) :
    findRoom name (getRoom m st).2.rooms = some r := by
  unfold getRoom
  cases hm : findRoom m st.rooms with
  | some q => simpa using h
  | none =>
      dsimp only [findRoom]
      have hne : m ≠ name := by
        intro e
        rw [e, h] at hm
        cases hm
      rw [if_neg hne]
      exact h

theorem runReg_mono (ns : List String) :
    ∀ (st : RegState) (name : String) (r : Nat),
      findRoom name st.rooms = some r →
      findRoom name (runReg ns st).2.rooms = some r := by
  induction ns with
  | nil => intro st name r h; exact h
  | cons m ns ih =>
      intro st name r h
      exact ih _ name r (getRoom_mono name m st r h)

/-- Every call in a burst returns exactly the instance recorded for its name
in the final registry — hence two calls with the same name return the same
instance. -/
theorem runReg_zip (ns : List String) :
    ∀ (st : RegState) (n : String) (r : Nat),
      (n, r) ∈ ns.zip (runReg ns st).1 →
      findRoom n (runReg ns st).2.rooms = some r := by
  induction ns with
  | nil => intro st n r h; cases h
  | cons m ns ih =>
      intro st n r h
      simp only [runReg, List.zip_cons_cons] at h
      rcases List.mem_cons.mp h with he | hr
      · injection he with h1 h2
        subst h1
        subst h2
        exact runReg_mono ns _ n _ (getRoom_lookup n st)
      · exact ih _ n r hr

theorem findRoom_none_iff (name : String) (l : List (String × Nat)) :
    findRoom name l = none ↔ name ∉ l.map Prod.fst := by
  induction l with
  | nil => simp [findRoom]
  | cons kv rest ih =>
      obtain ⟨k, v⟩ := kv
      by_cases hk : k = name
      · subst hk
        simp [findRoom, ih]
      · simp [findRoom, hk, ih, Ne.symm hk]

theorem getRoom_keys (name : String) (st : RegState) :
    (regKeys (getRoom name st).2).toFinset = insert name (regKeys st).toFinset := by
  unfold getRoom
  cases h : findRoom name st.rooms with
  | some r =>
      have hmem : name ∈ regKeys st := by
        by_contra hc
        rw [regKeys, ← findRoom_none_iff] at hc
        rw [h] at hc
        cases hc
      simp only []
      rw [Finset.insert_eq_self.mpr (List.mem_toFinset.mpr hmem)]
  | none =>
      simp [regKeys]

theorem getRoom_inv (name : String) (st : RegState) (h : RegInv st) :
    RegInv (getRoom name st).2 := by
  obtain ⟨h1, h2, h3⟩ := h
  unfold getRoom
  cases hf : findRoom name st.rooms with
  | some r => exact ⟨h1, h2, h3⟩
  | none =>
      refine ⟨by simp [h1], ?_, by simp [h3]⟩
      simp only [regKeys, List.map_cons]
      exact List.nodup_cons.mpr ⟨(findRoom_none_iff name st.rooms).mp hf, h2⟩

theorem runReg_inv (ns : List String) :
    ∀ st : RegState, RegInv st → RegInv (runReg ns st).2 := by
  induction ns with
  | nil => intro st h; exact h
  | cons m ns ih => intro st h; exact ih _ (getRoom_inv m st h)

theorem runReg_keys (ns : List String) :
    ∀ st : RegState,
      (regKeys (runReg ns st).2).toFinset = ns.toFinset ∪ (regKeys st).toFinset := by
  induction ns with
  | nil => intro st; simp [runReg]
  | cons m ns ih =>
      intro st
      simp only [runReg]
      rw [ih _, getRoom_keys]
      rw [List.toFinset_cons]
      rw [Finset.union_insert, Finset.insert_union]

/-- Claim C3: at most one room instance per name.  For any burst of calls
serialized by the mutex: (1) every call returns exactly the instance the
final registry records for its name — so same-name calls, concurrent
first-time calls included, return the same instance; (2) when an instance
already exists, `getRoom` returns it and creates nothing; (3) starting from
the empty registry, the number of created instances, and of run loops
started, is exactly the number of distinct names requested. -/
theorem registry_single_instance (ns : List String) :
    (∀ (n : String) (r : Nat), (n, r) ∈ ns.zip (runReg ns regInit).1 →
        findRoom n (runReg ns regInit).2.rooms = some r)
    ∧ (∀ (name : String) (st : RegState) (r : Nat),
        findRoom name st.rooms = some r → getRoom name st = (r, st))
    ∧ (runReg ns regInit).2.next = ns.toFinset.card
    ∧ (runReg ns regInit).2.started.length = ns.toFinset.card := by
  refine ⟨fun n r h => runReg_zip ns regInit n r h,
          fun name st r h => getRoom_found name st r h, ?_, ?_⟩
  all_goals
    obtain ⟨h1, h2, h3⟩ := runReg_inv ns regInit ⟨rfl, by simp [regKeys, regInit], rfl⟩
    have hc := List.toFinset_card_of_nodup h2
    have hinit : (regKeys regInit).toFinset = (∅ : Finset String) := by
      simp [regKeys, regInit]
    rw [runReg_keys ns regInit, hinit, Finset.union_empty, regKeys,
      List.length_map] at hc
  · rw [h1]
    exact hc.symm
  · rw [h3, h1]
    exact hc.symm

/-- Witness for C3 on the burst "a", "b", "a": the two calls for "a" both
return instance 0, instance count and started loops are 2. -/
theorem registry_single_instance_witness :
    ("a", 0) ∈ (["a", "b", "a"].zip (runReg ["a", "b", "a"] regInit).1)
    ∧ findRoom "a" (runReg ["a", "b", "a"] regInit).2.rooms = some 0
    ∧ (runReg ["a", "b", "a"] regInit).2.next = 2
    ∧ (runReg ["a", "b", "a"] regInit).2.started = [0, 1] :=
  ⟨by decide,
   (registry_single_instance ["a", "b", "a"]).1 "a" 0 (by decide),
   ((registry_single_instance ["a", "b", "a"]).2.2.1).trans (by decide),
   by decide⟩

/-- Claim C6: an upgrade request with an empty (or absent) `room` parameter
gets a 400 Bad Request, no Member is created, and the registry is unchanged. -/
theorem missing_room_param (u : Bool) (st : RegState) :
    handleRoom "" u st = (ServeResult.badRequest, st)
    ∧ memberCreated (handleRoom "" u st).1 = false := by
  constructor
  · simp [handleRoom]
  · simp [handleRoom, memberCreated]

/-- Claim C8: with a non-empty `room` parameter the room is resolved via the
registry before the upgrade is attempted, so a failed upgrade returns with no
Member created while the (possibly just created) room persists in the
registry. -/
theorem upgrade_failure_side_effects (room : String) (st : RegState)
    (h : room ≠ "") :
    handleRoom room false st = (ServeResult.upgradeErr, (getRoom room st).2)
    ∧ memberCreated (handleRoom room false st).1 = false
    ∧ (findRoom room st.rooms = none →
        findRoom room (handleRoom room false st).2.rooms
          = some (getRoom room st).1) := by
  have hl := getRoom_lookup room st
  have h2 := getRoom_found room (getRoom room st).2 (getRoom room st).1 hl
  have hmain : handleRoom room false st
      = (ServeResult.upgradeErr, (getRoom room st).2) := by
    simp only [handleRoom, roomServeHTTP, if_neg h]
    rw [h2]
    simp
  refine ⟨hmain, ?_, fun _ => ?_⟩
  · rw [hmain]
    rfl
  · rw [hmain]
    exact hl

/-- Witness for C8 on room name "lobby" against the empty registry. -/
theorem upgrade_failure_side_effects_witness :
    ("lobby" : String) ≠ ""
    ∧ handleRoom "lobby" false regInit
        = (ServeResult.upgradeErr, (getRoom "lobby" regInit).2)
    ∧ memberCreated (handleRoom "lobby" false regInit).1 = false
    ∧ (findRoom "lobby" regInit.rooms = none →
        findRoom "lobby" (handleRoom "lobby" false regInit).2.rooms
          = some (getRoom "lobby" regInit).1) :=
  ⟨by decide, upgrade_failure_side_effects "lobby" regInit (by decide)⟩

/-- Claim C7: every broadcast payload produced from an inbound frame is the
JSON serialization of the two-field record with keys exactly "name" (the
sender's display identity) and "message" (the frame text), in one of the two
field orders (order not significant; Go emits "message" first, by key sort). -/
theorem payload_encoding (name msg : String) :
    readPayload name msg = recordNameFirst name msg
    ∨ readPayload name msg = recordMessageFirst name msg := by
  right
  unfold readPayload marshalStringMap recordMessageFirst
  simp only [sortKV, insertKV]
  have hcmp : ¬ (("name" : String).data < ("message" : String).data) := by
    decide
  rw [if_neg hcmp]
  simp only [fieldsJoin]
  simp only [String.append_assoc]

end ChatApp
